import Mathlib

/-!
Shallow embedding of the RSVP playback core (`rsvp/core/text_processor.py` and
`rsvp/core/rsvp_engine.py`).  Python strings are modelled as `List Char`,
Python `int` as `Int` (or `Nat` where the source value is provably
non-negative), and the Python `float` pause multipliers / percentages as exact
rationals `ℚ` — every float literal appearing in the source (`1.0`, `1.2`,
`1.5`, `2.5`) is an exact decimal.  Qt signals are modelled as an explicit
list of emitted `Sig` values returned alongside the post-state.
-/

namespace RSVP

/-- Python whitespace characters recognised by `str.split()` (ASCII range). -/
def isPySpace (c : Char) : Bool :=
  c = ' ' || c = '\t' || c = '\n' || c = '\r' || c = Char.ofNat 11 || c = Char.ofNat 12

/-- Sentence-ending punctuation set `'.!?'` from the source. -/
def sentenceEnd (c : Char) : Bool :=
  c = '.' || c = '!' || c = '?'

/-- Clause-separator set `',;:'` from the source. -/
def clauseSep (c : Char) : Bool :=
  c = ',' || c = ';' || c = ':'

/-- Closing-quote/paren set `'"\x27)'` from the source (double quote,
apostrophe, closing parenthesis). -/
def closingPunct (c : Char) : Bool :=
  c = Char.ofNat 34 || c = Char.ofNat 39 || c = ')'

/-- `Word` dataclass of `text_processor.py`. -/
structure Word where
  text : List Char
  orp_index : Nat
  pause_after : ℚ
deriving DecidableEq

/-- `Word.before_orp`: `self.text[:self.orp_index]`. -/
def Word.before_orp (w : Word) : List Char :=
  w.text.take w.orp_index

/-- `Word.orp_char`: `self.text[self.orp_index] if self.orp_index < len(self.text) else ""`. -/
def Word.orp_char (w : Word) : List Char :=
  if w.orp_index < w.text.length then (w.text.drop w.orp_index).take 1 else []

/-- `Word.after_orp`: `self.text[self.orp_index + 1:] if self.orp_index < len(self.text) else ""`. -/
def Word.after_orp (w : Word) : List Char :=
  if w.orp_index < w.text.length then w.text.drop (w.orp_index + 1) else []

/-- `calculate_orp` from `text_processor.py`: the branch cascade on `len(word)`. -/
def calculate_orp (word : List Char) : Nat :=
  let length := word.length
  if length ≤ 1 then 0
  else if length ≤ 3 then 0
  else if length ≤ 5 then 1
  else if length ≤ 9 then 2
  else if length ≤ 13 then 3
  else 4

/-- `calculate_pause_multiplier` from `text_processor.py`.  `word[-1]` is
`word.getLast?` (the `if not word` guard is the `none` case); the inner test
`len(word) > 1 and word[-2] in '.!?'` reads the second-to-last character,
i.e. `word.dropLast.getLast?`. -/
def calculate_pause_multiplier (word : List Char) : ℚ :=
  match word.getLast? with
  | none => 1
  | some last_char =>
    if sentenceEnd last_char then 5/2
    else if clauseSep last_char then 3/2
    else if closingPunct last_char then
      match word.dropLast.getLast? with
      | some prev => if sentenceEnd prev then 5/2 else 6/5
      | none => 6/5
    else 1

/-- Accumulator-style whitespace splitter: `acc` holds the (reversed) pending
token.  `splitAux cs []` yields the maximal whitespace-separated tokens of
`cs`, which is the semantics of Python `text.split()` — and also of the
source's composite `re.sub(r'\s+', ' ', text.strip()).split()`, since
collapsing/stripping whitespace before splitting on it changes nothing. -/
def splitAux : List Char → List Char → List (List Char)
  | [], acc => if acc.isEmpty then [] else [acc.reverse]
  | c :: cs, acc =>
    if isPySpace c then
      if acc.isEmpty then splitAux cs [] else acc.reverse :: splitAux cs []
    else splitAux cs (c :: acc)

/-- Python `text.split()` (no separator argument). -/
def pySplit (cs : List Char) : List (List Char) :=
  splitAux cs []

/-- `process_text` from `text_processor.py`: split on whitespace, keep the
non-empty raw words (the `if raw_word:` guard), and build a `Word` with its
ORP index and pause multiplier. -/
def process_text (text : List Char) : List Word :=
  ((pySplit text).filter (fun raw => ¬ raw.isEmpty)).map
    (fun raw =>
      { text := raw, orp_index := calculate_orp raw,
        pause_after := calculate_pause_multiplier raw })

/-- The spec's decomposition of a character stream into maximal
whitespace-separated tokens: each token is non-empty and whitespace-free, is
preceded by whitespace only, and is followed by end-of-input or a whitespace
character (maximality). -/
inductive SplitSpec : List Char → List (List Char) → Prop where
  | nil : ∀ cs : List Char, (∀ c ∈ cs, isPySpace c = true) → SplitSpec cs []
  | cons : ∀ (pre tok rest : List Char) (toks : List (List Char)),
      (∀ c ∈ pre, isPySpace c = true) →
      tok ≠ [] →
      (∀ c ∈ tok, isPySpace c = false) →
      (∀ d ∈ rest.head?, isPySpace d = true) →
      SplitSpec rest toks →
      SplitSpec (pre ++ (tok ++ rest)) (tok :: toks)

/-! ## Playback engine (`rsvp_engine.py`) -/

/-- Python `int(x)` on a float/rational: truncation toward zero
(`Int.tdiv` of numerator by denominator). -/
def ratTrunc (q : ℚ) : Int :=
  q.num.tdiv q.den

/-- The Qt signals and timer commands the engine issues, in order.
`timer_set_interval` carries `int(interval)` from `QTimer.setInterval`. -/
inductive Sig where
  | word_changed : Option Word → Sig
  | state_changed : Sig
  | progress_changed : ℚ → Sig
  | finished : Sig
  | timer_start : Sig
  | timer_stop : Sig
  | timer_set_interval : Int → Sig
deriving DecidableEq

/-- `RSVPState` dataclass: `words`, `current_index`, `wpm`, `is_playing`
with their Python defaults in `initState`. -/
structure RSVPState where
  words : List Word
  current_index : Int
  wpm : Int
  is_playing : Bool
deriving DecidableEq

/-- The freshly constructed `RSVPState()`. -/
def initState : RSVPState :=
  { words := [], current_index := 0, wpm := 300, is_playing := false }

/-- `RSVPState.current_word`: `words[current_index]` when
`0 <= current_index < len(words)`, else `None`. -/
def RSVPState.current_word (s : RSVPState) : Option Word :=
  if 0 ≤ s.current_index ∧ s.current_index < (s.words.length : Int) then
    s.words.get? s.current_index.toNat
  else none

/-- `RSVPState.progress`: `current_index / len(words) * 100`, `0` when empty. -/
def RSVPState.progress (s : RSVPState) : ℚ :=
  if s.words.isEmpty then 0
  else ((s.current_index : ℚ) / (s.words.length : ℚ)) * 100

/-- `_update_timer_interval`'s interval value:
`int((60000 / wpm) * current.pause_after)` (or just `int(60000 / wpm)` when
there is no current word). -/
def engineInterval (s : RSVPState) : Int :=
  let base_interval : ℚ := 60000 / (s.wpm : ℚ)
  let interval : ℚ :=
    match s.current_word with
    | some current => base_interval * current.pause_after
    | none => base_interval
  ratTrunc interval

/-- `RSVPEngine._update_timer_interval`: emits the `setInterval` command. -/
def update_timer_interval (s : RSVPState) : List Sig :=
  [Sig.timer_set_interval (engineInterval s)]

/-- `RSVPEngine.pause`. -/
def pause (s : RSVPState) : RSVPState × List Sig :=
  ({ s with is_playing := false }, [Sig.timer_stop, Sig.state_changed])

/-- `RSVPEngine.play`. -/
def play (s : RSVPState) : RSVPState × List Sig :=
  if s.words.isEmpty then (s, [])
  else
    let s1 := if (s.words.length : Int) - 1 ≤ s.current_index
              then { s with current_index := 0 } else s
    let s2 := { s1 with is_playing := true }
    (s2, update_timer_interval s2 ++ [Sig.timer_start, Sig.state_changed])

/-- `RSVPEngine.toggle_play_pause`. -/
def toggle_play_pause (s : RSVPState) : RSVPState × List Sig :=
  if s.is_playing then pause s else play s

/-- `RSVPEngine.stop`. -/
def stop (s : RSVPState) : RSVPState × List Sig :=
  let s1 := { s with is_playing := false, current_index := 0 }
  (s1, [Sig.timer_stop, Sig.state_changed, Sig.progress_changed 0] ++
       (if s1.words.isEmpty then [] else [Sig.word_changed s1.current_word]))

/-- `RSVPEngine.load_text`: `stop()`, replace `words`, reset cursor, notify. -/
def load_text (s : RSVPState) (text : List Char) : RSVPState × List Sig :=
  let p := stop s
  let s2 := { p.1 with words := process_text text, current_index := 0 }
  (s2, p.2 ++ [Sig.state_changed, Sig.progress_changed 0] ++
       (if s2.words.isEmpty then [Sig.word_changed none]
        else [Sig.word_changed s2.current_word]))

/-- `RSVPEngine.seek`: clamp the index into `[0, len(words)-1]`. -/
def seek (s : RSVPState) (index : Int) : RSVPState × List Sig :=
  if s.words.isEmpty then (s, [])
  else
    let s1 := { s with current_index := max 0 (min index ((s.words.length : Int) - 1)) }
    (s1, [Sig.word_changed s1.current_word, Sig.progress_changed s1.progress])

/-- The index `int((percent / 100) * len(words))` computed by `seek_percent`. -/
def seek_percent_index (percent : ℚ) (n : Nat) : Int :=
  ratTrunc ((percent / 100) * (n : ℚ))

/-- `RSVPEngine.seek_percent`. -/
def seek_percent (s : RSVPState) (percent : ℚ) : RSVPState × List Sig :=
  if s.words.isEmpty then (s, [])
  else seek s (seek_percent_index percent s.words.length)

/-- `RSVPEngine.skip_forward`. -/
def skip_forward (s : RSVPState) (words : Int) : RSVPState × List Sig :=
  seek s (s.current_index + words)

/-- `RSVPEngine.skip_backward`. -/
def skip_backward (s : RSVPState) (words : Int) : RSVPState × List Sig :=
  seek s (s.current_index - words)

/-- The loop test `word.text and word.text[-1] in '.!?'`. -/
def sentenceEndWord (w : Word) : Bool :=
  match w.text.getLast? with
  | some c => sentenceEnd c
  | none => false

/-- `words[k]` is a sentence terminator (out-of-range reads as `false`;
the engine only scans in-range indices). -/
def terminatorAt (words : List Word) (k : Nat) : Bool :=
  match words.get? k with
  | some w => sentenceEndWord w
  | none => false

/-- The `while idx > 0` scan of `previous_sentence`, returning the index
passed to the single trailing `seek`. -/
def previous_sentence_scan (words : List Word) : Nat → Nat
  | 0 => 0
  | idx + 1 =>
    if terminatorAt words (idx + 1) then idx + 2
    else previous_sentence_scan words idx

/-- `RSVPEngine.previous_sentence`: scan starts at `max(0, current_index - 1)`
(non-negative, hence the `toNat`). -/
def previous_sentence (s : RSVPState) : RSVPState × List Sig :=
  if s.words.isEmpty then (s, [])
  else seek s ((previous_sentence_scan s.words (max 0 (s.current_index - 1)).toNat : Nat) : Int)

/-- The body of `next_sentence`'s `while idx < len(words) - 1` loop, with the
remaining iteration count `len(words) - 1 - idx` made explicit as structural
fuel (`fuel = 0` exactly when the loop guard `idx < len(words) - 1` fails). -/
def nextScanGo (words : List Word) : Nat → Nat → Nat
  | _, 0 => words.length - 1
  | idx, fuel + 1 =>
    if terminatorAt words idx then idx + 1
    else nextScanGo words (idx + 1) fuel

/-- The `while idx < len(words) - 1` scan of `next_sentence`, returning the
index passed to the single trailing `seek` (`idx + 1` at the first
terminator, else `len(words) - 1`). -/
def next_sentence_scan (words : List Word) (idx : Nat) : Nat :=
  nextScanGo words idx (words.length - 1 - idx)

/-- `RSVPEngine.next_sentence`: scan starts at `current_index` (non-negative
on every reachable state, hence the `toNat`). -/
def next_sentence (s : RSVPState) : RSVPState × List Sig :=
  if s.words.isEmpty then (s, [])
  else seek s ((next_sentence_scan s.words s.current_index.toNat : Nat) : Int)

/-- The `wpm` property setter: clamp to `[50, 2000]` and, while playing,
refresh the timer interval. -/
def set_wpm (s : RSVPState) (value : Int) : RSVPState × List Sig :=
  let s1 := { s with wpm := max 50 (min 2000 value) }
  (s1, if s1.is_playing then update_timer_interval s1 else [])

/-- `RSVPEngine._advance` (the timer tick handler). -/
def advance (s : RSVPState) : RSVPState × List Sig :=
  let s1 := { s with current_index := s.current_index + 1 }
  if (s1.words.length : Int) ≤ s1.current_index then
    let p := pause s1
    ({ p.1 with current_index := (p.1.words.length : Int) - 1 }, p.2 ++ [Sig.finished])
  else
    (s1, [Sig.word_changed s1.current_word, Sig.progress_changed s1.progress] ++
         update_timer_interval s1)

/-- The public operations, plus `tick` for a timer timeout.  The timer is
started exactly by `play` and stopped by `pause`/`stop`/the end-of-text
branch of `advance`, so it is active precisely while `is_playing`; a `tick`
arriving while not playing therefore does nothing and emits nothing. -/
inductive Event where
  | load : List Char → Event
  | play : Event
  | pause : Event
  | toggle : Event
  | stop : Event
  | seek : Int → Event
  | seekPercent : ℚ → Event
  | skipForward : Int → Event
  | skipBackward : Int → Event
  | prevSentence : Event
  | nextSentence : Event
  | setRate : Int → Event
  | tick : Event

/-- One step of the engine: apply an event, returning the post-state and the
signals emitted during the call. -/
def step (s : RSVPState) : Event → RSVPState × List Sig
  | .load t => load_text s t
  | .play => play s
  | .pause => pause s
  | .toggle => toggle_play_pause s
  | .stop => stop s
  | .seek i => seek s i
  | .seekPercent p => seek_percent s p
  | .skipForward n => skip_forward s n
  | .skipBackward n => skip_backward s n
  | .prevSentence => previous_sentence s
  | .nextSentence => next_sentence s
  | .setRate v => set_wpm s v
  | .tick => if s.is_playing then advance s else (s, [])

/-- Run a sequence of events, keeping only the final state. -/
def run (s : RSVPState) : List Event → RSVPState
  | [] => s
  | e :: es => run (step s e).1 es

/-- Run a sequence of events, also collecting every emitted signal. -/
def runSigs (s : RSVPState) : List Event → RSVPState × List Sig
  | [] => (s, [])
  | e :: es =>
    let p := step s e
    let q := runSigs p.1 es
    (q.1, p.2 ++ q.2)



/-- The engine invariant: the cursor is a valid index into `words` (and `0`
when no text is loaded), and the engine is playing only with text loaded. -/
def Inv (s : RSVPState) : Prop :=
  (s.words = [] → s.current_index = 0)
  ∧ (s.words ≠ [] → 0 ≤ s.current_index ∧ s.current_index < (s.words.length : Int))
  ∧ (s.is_playing = true → s.words ≠ [])

/-- A sample word used to build concrete engine states for instantiating
theorems with hypotheses. -/
def wHi : Word := { text := ['h', 'i'], orp_index := 0, pause_after := 1 }

/-- A one-word playing state, cursor on the last word. -/
def sTick : RSVPState :=
  { words := [wHi], current_index := 0, wpm := 300, is_playing := true }

/-- A one-word paused state. -/
def sPlay : RSVPState :=
  { words := [wHi], current_index := 0, wpm := 300, is_playing := false }

/-- A two-word paused state. -/
def sTwo : RSVPState :=
  { words := [wHi, wHi], current_index := 0, wpm := 300, is_playing := false }

/-- Concrete tokenizer outputs used to instantiate the tokenizer theorems. -/
def wAbc : Word :=
  { text := "abc.".toList, orp_index := calculate_orp "abc.".toList,
    pause_after := calculate_pause_multiplier "abc.".toList }

/-- Concrete tokenizer output for the word-view theorem. -/
def wHello : Word :=
  { text := "hello".toList, orp_index := calculate_orp "hello".toList,
    pause_after := calculate_pause_multiplier "hello".toList }

/-! ## Theorems -/

/-! ### Tokenizer lemmas -/

/-- Splitting never produces an empty token. -/
theorem splitAux_ne_nil : ∀ (cs acc : List Char), [] ∉ splitAux cs acc := by
  intro cs
  induction cs with
  | nil =>
    intro acc
    simp only [splitAux]
    by_cases h : acc.isEmpty
    · simp [h]
    · simp only [h, if_false]
      intro hmem
      rcases List.mem_singleton.mp hmem with h0
      have : acc = [] := by simpa using congrArg List.reverse h0.symm
      simp [this] at h
  | cons c cs ih =>
    intro acc
    simp only [splitAux]
    by_cases hsp : isPySpace c
    · by_cases hacc : acc.isEmpty
      · simp only [hsp, hacc, if_true]
        exact ih []
      · simp only [hsp, hacc, if_true, if_false]
        intro hmem
        rcases List.mem_cons.mp hmem with h0 | h0
        · have : acc = [] := by simpa using congrArg List.reverse h0.symm
          simp [this] at hacc
        · exact ih [] h0
    · simp only [hsp, if_false]
      exact ih (c :: acc)

/-- Splitting with a pending token never yields the empty token list. -/
theorem splitAux_ne_nil_of_acc : ∀ (cs acc : List Char), acc ≠ [] → splitAux cs acc ≠ [] := by
  intro cs
  induction cs with
  | nil =>
    intro acc hacc
    simp only [splitAux]
    have : acc.isEmpty = false := by simpa [List.isEmpty_iff] using hacc
    simp [this]
  | cons c cs ih =>
    intro acc hacc
    simp only [splitAux]
    have : acc.isEmpty = false := by simpa [List.isEmpty_iff] using hacc
    by_cases hsp : isPySpace c
    · simp [hsp, this]
    · simp only [hsp, if_false]
      exact ih (c :: acc) (by simp)

/-- `splitAux cs []` is empty exactly when `cs` is all whitespace. -/
theorem splitAux_nil_eq_nil_iff :
    ∀ cs : List Char, splitAux cs [] = [] ↔ ∀ c ∈ cs, isPySpace c = true := by
  intro cs
  induction cs with
  | nil => simp [splitAux]
  | cons c cs ih =>
    simp only [splitAux, List.isEmpty_nil, if_true]
    by_cases hsp : isPySpace c
    · simpa [hsp] using ih
    · have : splitAux cs [c] ≠ [] := splitAux_ne_nil_of_acc cs [c] (by simp)
      simp [hsp, this]

/-- Prepending a whitespace character preserves a token decomposition. -/
theorem SplitSpec.cons_space {cs : List Char} {toks : List (List Char)} {c : Char}
    (hc : isPySpace c = true) (h : SplitSpec cs toks) : SplitSpec (c :: cs) toks := by
  cases h with
  | nil cs hall =>
    refine SplitSpec.nil _ ?_
    intro d hd
    rcases List.mem_cons.mp hd with rfl | hd
    · exact hc
    · exact hall d hd
  | cons pre tok rest toks hpre htok hfree hbound hrest =>
    have : c :: (pre ++ (tok ++ rest)) = (c :: pre) ++ (tok ++ rest) := rfl
    rw [this]
    refine SplitSpec.cons _ _ _ _ ?_ htok hfree hbound hrest
    intro d hd
    rcases List.mem_cons.mp hd with rfl | hd
    · exact hc
    · exact hpre d hd

/-- The splitter realises the spec decomposition, for any whitespace-free
pending token `acc`. -/
theorem splitAux_splitSpec :
    ∀ (cs acc : List Char), (∀ c ∈ acc, isPySpace c = false) →
      SplitSpec (acc.reverse ++ cs) (splitAux cs acc) := by
  intro cs
  induction cs with
  | nil =>
    intro acc hacc
    by_cases h : acc = []
    · subst h
      simp only [splitAux, List.isEmpty_nil, if_true]
      exact SplitSpec.nil [] (by simp)
    · have hemp : acc.isEmpty = false := List.isEmpty_eq_false.mpr h
      have key : SplitSpec ([] ++ (acc.reverse ++ [])) [acc.reverse] :=
        SplitSpec.cons [] acc.reverse [] [] (by simp) (by simpa using h)
          (fun c hc => hacc c (List.mem_reverse.mp hc)) (by simp)
          (SplitSpec.nil [] (by simp))
      simp only [splitAux, hemp, Bool.false_eq_true, if_false]
      simpa using key
  | cons c cs ih =>
    intro acc hacc
    by_cases hsp : isPySpace c
    · by_cases h : acc = []
      · subst h
        simp only [splitAux, hsp, List.isEmpty_nil, if_true, List.reverse_nil,
          List.nil_append]
        exact SplitSpec.cons_space hsp (ih [] (by simp))
      · have hemp : acc.isEmpty = false := List.isEmpty_eq_false.mpr h
        have key : SplitSpec ([] ++ (acc.reverse ++ (c :: cs)))
            (acc.reverse :: splitAux cs []) :=
          SplitSpec.cons [] acc.reverse (c :: cs) (splitAux cs []) (by simp)
            (by simpa using h) (fun d hd => hacc d (List.mem_reverse.mp hd))
            (by simpa using hsp)
            (SplitSpec.cons_space hsp (ih [] (by simp)))
        simp only [splitAux, hsp, hemp, Bool.false_eq_true, if_true, if_false]
        simpa using key
    · have hspf : isPySpace c = false := by simpa using hsp
      simp only [splitAux, hspf, Bool.false_eq_true, if_false]
      have := ih (c :: acc) ?_
      · simpa using this
      · intro d hd
        rcases List.mem_cons.mp hd with rfl | hd
        · exact hspf
        · exact hacc d hd

/-- The texts of the produced `Word`s are exactly the split tokens. -/
theorem process_text_map_text (cs : List Char) :
    (process_text cs).map Word.text = pySplit cs := by
  rw [process_text]
  have hfilter : (pySplit cs).filter (fun raw => ¬ raw.isEmpty) = pySplit cs := by
    rw [List.filter_eq_self]
    intro raw hraw
    have : raw ≠ [] := by
      intro h0
      subst h0
      exact splitAux_ne_nil cs [] hraw
    simpa [List.isEmpty_iff] using this
  rw [hfilter, List.map_map]
  exact List.map_id'' (fun _ => rfl) _

/-- Membership in `process_text` comes from a non-empty split token. -/
theorem mem_process_text {cs : List Char} {w : Word} (h : w ∈ process_text cs) :
    ∃ raw, raw ∈ pySplit cs ∧ raw ≠ [] ∧
      w = { text := raw, orp_index := calculate_orp raw,
            pause_after := calculate_pause_multiplier raw } := by
  rw [process_text] at h
  rcases List.mem_map.mp h with ⟨raw, hraw, hw⟩
  rcases List.mem_filter.mp hraw with ⟨hmem, hne⟩
  refine ⟨raw, hmem, ?_, hw.symm⟩
  intro h0
  subst h0
  simp at hne

/-- The ORP index of a non-empty word is a valid position in it. -/
theorem calculate_orp_lt {raw : List Char} (h : raw ≠ []) :
    calculate_orp raw < raw.length := by
  have hl : 0 < raw.length := List.length_pos.mpr h
  rw [calculate_orp]
  split_ifs <;> omega

/-- The ORP table is monotone non-decreasing in word length. -/
theorem calculate_orp_mono {v u : List Char} (h : v.length ≤ u.length) :
    calculate_orp v ≤ calculate_orp u := by
  rw [calculate_orp, calculate_orp]
  split_ifs <;> omega

/-- The punctuation classes of `calculate_pause_multiplier` are disjoint:
a clause separator is not a sentence end. -/
theorem clauseSep_not_sentenceEnd {c : Char} (h : clauseSep c = true) :
    sentenceEnd c = false := by
  simp only [clauseSep, Bool.or_eq_true, decide_eq_true_eq] at h
  rcases h with (h | h) | h <;> subst h <;> rfl

/-- A closing quote/paren is neither a sentence end nor a clause separator. -/
theorem closingPunct_not_other {c : Char} (h : closingPunct c = true) :
    sentenceEnd c = false ∧ clauseSep c = false := by
  simp only [closingPunct, Bool.or_eq_true, decide_eq_true_eq] at h
  rcases h with (h | h) | h <;> subst h <;> exact ⟨rfl, rfl⟩

/-- `ratTrunc` agrees with the floor on non-negative rationals. -/
theorem ratTrunc_eq_floor {q : ℚ} (h : 0 ≤ q) : ratTrunc q = Int.floor q := by
  rw [ratTrunc, Rat.floor_def]
  exact Int.tdiv_eq_ediv (Rat.num_nonneg.mpr h) (Int.natCast_nonneg _)

/-- `ratTrunc` of a non-positive rational is non-positive. -/
theorem ratTrunc_nonpos {q : ℚ} (h : q ≤ 0) : ratTrunc q ≤ 0 := by
  rw [ratTrunc]
  have hnum : q.num ≤ 0 := Rat.num_nonpos.mpr h
  have hden : (0 : Int) ≤ (q.den : Int) := Int.natCast_nonneg _
  have : (0 : Int) ≤ -q.num := by omega
  have hng : 0 ≤ (-q.num).tdiv q.den := Int.tdiv_nonneg this hden
  rw [show q.num = -(-q.num) by omega, Int.neg_tdiv]
  omega

/-- On a natural-number cast, `ratTrunc` is the identity. -/
theorem ratTrunc_natCast (n : Nat) : ratTrunc (n : ℚ) = n := by
  rw [ratTrunc_eq_floor (by positivity), Int.floor_natCast]

/-! ### Post-state characterizations of the engine operations -/

theorem pause_fst (s : RSVPState) : (pause s).1 = { s with is_playing := false } := rfl

theorem stop_fst (s : RSVPState) :
    (stop s).1 = { s with is_playing := false, current_index := 0 } := rfl

theorem load_text_fst (s : RSVPState) (t : List Char) :
    (load_text s t).1
      = { s with words := process_text t, current_index := 0, is_playing := false } := rfl

theorem set_wpm_fst (s : RSVPState) (v : Int) :
    (set_wpm s v).1 = { s with wpm := max 50 (min 2000 v) } := rfl

theorem seek_fst (s : RSVPState) (i : Int) :
    (seek s i).1 = if s.words = [] then s
      else { s with current_index := max 0 (min i ((s.words.length : Int) - 1)) } := by
  by_cases hne : s.words = []
  · simp [seek, hne]
  · simp [seek, hne, List.isEmpty_eq_false.mpr hne]

theorem play_fst (s : RSVPState) :
    (play s).1 = if s.words = [] then s
      else { s with
             current_index := if (s.words.length : Int) - 1 ≤ s.current_index
                              then 0 else s.current_index,
             is_playing := true } := by
  by_cases hne : s.words = []
  · simp [play, hne]
  · by_cases hc : (s.words.length : Int) - 1 ≤ s.current_index
    · simp [play, hne, List.isEmpty_eq_false.mpr hne, hc]
    · simp [play, hne, List.isEmpty_eq_false.mpr hne, hc]

theorem advance_fst (s : RSVPState) :
    (advance s).1 = if (s.words.length : Int) ≤ s.current_index + 1
      then { s with is_playing := false, current_index := (s.words.length : Int) - 1 }
      else { s with current_index := s.current_index + 1 } := by
  by_cases hc : (s.words.length : Int) ≤ s.current_index + 1
  · simp [advance, pause, hc]
  · simp [advance, pause, hc]

theorem seek_percent_fst (s : RSVPState) (p : ℚ) :
    (seek_percent s p).1 = if s.words = [] then s
      else (seek s (seek_percent_index p s.words.length)).1 := by
  by_cases hne : s.words = []
  · simp [seek_percent, hne]
  · simp [seek_percent, hne, List.isEmpty_eq_false.mpr hne]

theorem previous_sentence_fst (s : RSVPState) :
    (previous_sentence s).1 = if s.words = [] then s
      else (seek s ((previous_sentence_scan s.words
             (max 0 (s.current_index - 1)).toNat : Nat) : Int)).1 := by
  by_cases hne : s.words = []
  · simp [previous_sentence, hne]
  · simp [previous_sentence, hne, List.isEmpty_eq_false.mpr hne]

theorem next_sentence_fst (s : RSVPState) :
    (next_sentence s).1 = if s.words = [] then s
      else (seek s ((next_sentence_scan s.words s.current_index.toNat : Nat) : Int)).1 := by
  by_cases hne : s.words = []
  · simp [next_sentence, hne]
  · simp [next_sentence, hne, List.isEmpty_eq_false.mpr hne]

/-! ### Invariant preservation -/

theorem initState_inv : Inv initState := by
  refine ⟨fun _ => rfl, fun h => absurd rfl h, fun h => by simp [initState] at h⟩

theorem seek_inv {s : RSVPState} (h : Inv s) (i : Int) : Inv (seek s i).1 := by
  rw [seek_fst]
  by_cases hne : s.words = []
  · simpa [hne] using h
  · have hlen : 0 < s.words.length := List.length_pos.mpr hne
    simp only [hne, if_false]
    refine ⟨fun h0 => absurd h0 hne, fun _ => ?_, fun _ => hne⟩
    dsimp only
    omega

theorem pause_inv {s : RSVPState} (h : Inv s) : Inv (pause s).1 := by
  rw [pause_fst]
  exact ⟨h.1, h.2.1, fun hp => by simp at hp⟩

theorem stop_inv (s : RSVPState) : Inv (stop s).1 := by
  rw [stop_fst]
  refine ⟨fun _ => rfl, fun hne => ?_, fun hp => by simp at hp⟩
  have hlen : 0 < s.words.length := List.length_pos.mpr (by simpa using hne)
  dsimp only
  omega

theorem load_text_inv (s : RSVPState) (t : List Char) : Inv (load_text s t).1 := by
  rw [load_text_fst]
  refine ⟨fun _ => rfl, fun hne => ?_, fun hp => by simp at hp⟩
  have hlen : 0 < (process_text t).length := List.length_pos.mpr (by simpa using hne)
  dsimp only
  omega

theorem set_wpm_inv {s : RSVPState} (h : Inv s) (v : Int) : Inv (set_wpm s v).1 := by
  rw [set_wpm_fst]
  exact ⟨h.1, h.2.1, h.2.2⟩

theorem play_inv {s : RSVPState} (h : Inv s) : Inv (play s).1 := by
  rw [play_fst]
  by_cases hne : s.words = []
  · simpa [hne] using h
  · have hlen : 0 < s.words.length := List.length_pos.mpr hne
    simp only [hne, if_false]
    refine ⟨fun h0 => absurd h0 hne, fun _ => ?_, fun _ => hne⟩
    rcases h.2.1 hne with ⟨h1, h2⟩
    dsimp only
    by_cases hc : (s.words.length : Int) - 1 ≤ s.current_index
    · simp only [hc, if_true]
      omega
    · simp only [hc, if_false]
      omega

theorem toggle_inv {s : RSVPState} (h : Inv s) : Inv (toggle_play_pause s).1 := by
  rw [toggle_play_pause]
  by_cases hp : s.is_playing
  · simp only [hp, if_true]
    exact pause_inv h
  · simp only [hp, if_false]
    exact play_inv h

theorem advance_inv {s : RSVPState} (h : Inv s) (hp : s.is_playing = true) :
    Inv (advance s).1 := by
  have hne : s.words ≠ [] := h.2.2 hp
  have hlen : 0 < s.words.length := List.length_pos.mpr hne
  rcases h.2.1 hne with ⟨h1, h2⟩
  rw [advance_fst]
  by_cases hc : (s.words.length : Int) ≤ s.current_index + 1
  · simp only [hc, if_true]
    refine ⟨fun h0 => absurd h0 hne, fun _ => ?_, fun hq => by simp at hq⟩
    dsimp only
    omega
  · simp only [hc, if_false]
    refine ⟨fun h0 => absurd h0 hne, fun _ => ?_, fun _ => hne⟩
    dsimp only
    omega

theorem step_inv {s : RSVPState} (h : Inv s) (e : Event) : Inv (step s e).1 := by
  cases e with
  | load t => exact load_text_inv s t
  | play => exact play_inv h
  | pause => exact pause_inv h
  | toggle => exact toggle_inv h
  | stop => exact stop_inv s
  | seek i => exact seek_inv h i
  | seekPercent p =>
    show Inv (seek_percent s p).1
    rw [seek_percent_fst]
    by_cases hne : s.words = []
    · simpa [hne] using h
    · simp only [hne, if_false]
      exact seek_inv h _
  | skipForward n => exact seek_inv h _
  | skipBackward n => exact seek_inv h _
  | prevSentence =>
    show Inv (previous_sentence s).1
    rw [previous_sentence_fst]
    by_cases hne : s.words = []
    · simpa [hne] using h
    · simp only [hne, if_false]
      exact seek_inv h _
  | nextSentence =>
    show Inv (next_sentence s).1
    rw [next_sentence_fst]
    by_cases hne : s.words = []
    · simpa [hne] using h
    · simp only [hne, if_false]
      exact seek_inv h _
  | setRate v => exact set_wpm_inv h v
  | tick =>
    show Inv (if s.is_playing then advance s else (s, [])).1
    by_cases hp : s.is_playing
    · simp only [hp, if_true]
      exact advance_inv h hp
    · simpa [hp] using h

theorem run_inv {s : RSVPState} (h : Inv s) (es : List Event) : Inv (run s es) := by
  induction es generalizing s with
  | nil => exact h
  | cons e es ih => exact ih (step_inv h e)

/-! ### Claim theorems for the tokenizer -/

/-- C7: every `Word` emitted by `process_text` has its `orp_index` given by
the length table (1–3 → 0, 4–5 → 1, 6–9 → 2, 10–13 → 3, ≥14 → 4), which is
monotone non-decreasing in the length and always a valid index; and its
`pause_after` is given by the trailing character: sentence enders give 5/2,
clause separators 3/2, closing quote/paren 5/2 when preceded by a sentence
ender and 6/5 otherwise, and anything else 1. -/
theorem tokenize_focus_pause_tables (text : List Char) (w : Word)
    (hw : w ∈ process_text text) :
    ((w.text.length ≤ 3 → w.orp_index = 0)
      ∧ (4 ≤ w.text.length ∧ w.text.length ≤ 5 → w.orp_index = 1)
      ∧ (6 ≤ w.text.length ∧ w.text.length ≤ 9 → w.orp_index = 2)
      ∧ (10 ≤ w.text.length ∧ w.text.length ≤ 13 → w.orp_index = 3)
      ∧ (14 ≤ w.text.length → w.orp_index = 4)
      ∧ (∀ u : List Char, w.text.length ≤ u.length → w.orp_index ≤ calculate_orp u)
      ∧ w.orp_index < w.text.length)
    ∧ (∀ c, w.text.getLast? = some c →
        (sentenceEnd c = true → w.pause_after = 5/2)
        ∧ (clauseSep c = true → w.pause_after = 3/2)
        ∧ (closingPunct c = true →
            (∀ p, w.text.dropLast.getLast? = some p → sentenceEnd p = true →
              w.pause_after = 5/2)
            ∧ ((∀ p, w.text.dropLast.getLast? = some p → sentenceEnd p = false) →
              w.pause_after = 6/5))
        ∧ (sentenceEnd c = false → clauseSep c = false → closingPunct c = false →
            w.pause_after = 1)) := by
  rcases mem_process_text hw with ⟨raw, hmem, hne, hw_eq⟩
  have htext : w.text = raw := by rw [hw_eq]
  have horp : w.orp_index = calculate_orp raw := by rw [hw_eq]
  have hpause : w.pause_after = calculate_pause_multiplier raw := by rw [hw_eq]
  rw [htext, horp, hpause]
  constructor
  · refine ⟨?_, ?_, ?_, ?_, ?_, ?_, calculate_orp_lt hne⟩
    · intro h
      simp only [calculate_orp]
      split_ifs <;> omega
    · intro h
      simp only [calculate_orp]
      split_ifs <;> omega
    · intro h
      simp only [calculate_orp]
      split_ifs <;> omega
    · intro h
      simp only [calculate_orp]
      split_ifs <;> omega
    · intro h
      simp only [calculate_orp]
      split_ifs <;> omega
    · intro u hu
      exact calculate_orp_mono hu
  · intro c hc
    refine ⟨?_, ?_, ?_, ?_⟩
    · intro hs
      simp only [calculate_pause_multiplier, hc, hs, if_true]
    · intro hcl
      have hs : sentenceEnd c = false := clauseSep_not_sentenceEnd hcl
      simp only [calculate_pause_multiplier, hc, hs, hcl, Bool.false_eq_true, if_false,
        if_true]
    · intro hcp
      rcases closingPunct_not_other hcp with ⟨hs, hcl⟩
      constructor
      · intro p hp hps
        simp only [calculate_pause_multiplier, hc, hs, hcl, hcp, hp, hps,
          Bool.false_eq_true, if_false, if_true]
      · intro hnall
        rcases hdrop : raw.dropLast.getLast? with _ | p
        · simp only [calculate_pause_multiplier, hc, hs, hcl, hcp, hdrop,
            Bool.false_eq_true, if_false, if_true]
        · have hps : sentenceEnd p = false := hnall p hdrop
          simp only [calculate_pause_multiplier, hc, hs, hcl, hcp, hdrop, hps,
            Bool.false_eq_true, if_false, if_true]
    · intro hs hcl hcp
      simp only [calculate_pause_multiplier, hc, hs, hcl, hcp, Bool.false_eq_true,
        if_false]

/-- Witness for C7: the token `"abc."` of length 4 gets `orp_index = 1` and,
ending in `'.'`, `pause_after = 5/2`. -/
theorem tokenize_focus_pause_tables_witness :
    wAbc ∈ process_text "abc.".toList
    ∧ wAbc.orp_index = 1 ∧ wAbc.pause_after = 5/2 := by
  have hmem : wAbc ∈ process_text "abc.".toList := List.Mem.head _
  have h := tokenize_focus_pause_tables "abc.".toList wAbc hmem
  refine ⟨hmem, ?_, ?_⟩
  · exact h.1.2.1 (by decide)
  · exact (h.2 '.' rfl).1 rfl

/-- C8: `process_text` is total (it is a Lean function), returns the empty
list exactly when the input is all whitespace, and otherwise returns one
`Word` per maximal whitespace-separated token in original order (captured by
`SplitSpec`), each with non-empty text. -/
theorem tokenize_total_and_tokens (text : List Char) :
    (process_text text = [] ↔ ∀ c ∈ text, isPySpace c = true)
    ∧ (∀ w ∈ process_text text, w.text ≠ [])
    ∧ SplitSpec text ((process_text text).map Word.text) := by
  refine ⟨?_, ?_, ?_⟩
  · constructor
    · intro h
      have hmap := process_text_map_text text
      rw [h] at hmap
      exact (splitAux_nil_eq_nil_iff text).mp hmap.symm
    · intro h
      have h0 : pySplit text = [] := (splitAux_nil_eq_nil_iff text).mpr h
      rw [process_text, h0]
      rfl
  · intro w hw
    rcases mem_process_text hw with ⟨raw, _, hne, rfl⟩
    exact hne
  · rw [process_text_map_text]
    have := splitAux_splitSpec text [] (by simp)
    simpa using this

/-- Witness for C8 at concrete inputs: the empty string and a
whitespace-only string tokenize to the empty sequence. -/
theorem tokenize_total_and_tokens_witness :
    process_text [] = [] ∧ process_text "   \n\t ".toList = [] := by
  constructor
  · exact (tokenize_total_and_tokens []).1.mpr (by intro c hc; cases hc)
  · exact (tokenize_total_and_tokens "   \n\t ".toList).1.mpr (by decide)

/-- C10: for every `Word` emitted by `process_text`, the derived views
reassemble the stored text, the focus character is a single character, and
the ORP index is in range. -/
theorem word_views_reconstruct_text (text : List Char) (w : Word)
    (hw : w ∈ process_text text) :
    w.before_orp ++ w.orp_char ++ w.after_orp = w.text
    ∧ w.orp_char.length = 1
    ∧ w.orp_index < w.text.length := by
  rcases mem_process_text hw with ⟨raw, hmem, hne, rfl⟩
  have horp : calculate_orp raw < raw.length := calculate_orp_lt hne
  refine ⟨?_, ?_, horp⟩
  · simp only [Word.before_orp, Word.orp_char, Word.after_orp, horp, if_true]
    rw [List.append_assoc]
    have hdecomp : (raw.drop (calculate_orp raw)).take 1
        ++ raw.drop (calculate_orp raw + 1) = raw.drop (calculate_orp raw) := by
      have h1 : raw.drop (calculate_orp raw + 1)
          = (raw.drop (calculate_orp raw)).drop 1 := by
        rw [List.drop_drop]
      rw [h1]
      exact List.take_append_drop 1 _
    rw [hdecomp, List.take_append_drop]
  · simp only [Word.orp_char, horp, if_true, List.length_take, List.length_drop]
    omega

/-- Witness for C10: the emitted word `"hello"` (ORP index 2) reassembles
from its three views. -/
theorem word_views_reconstruct_text_witness :
    wHello ∈ process_text "hello".toList
    ∧ (wHello.before_orp ++ wHello.orp_char ++ wHello.after_orp = wHello.text
       ∧ wHello.orp_char.length = 1
       ∧ wHello.orp_index < wHello.text.length) := by
  have hmem : wHello ∈ process_text "hello".toList := List.Mem.head _
  exact ⟨hmem, word_views_reconstruct_text "hello".toList wHello hmem⟩

/-! ### Claim theorems for the engine -/

/-- C2: on every state reachable from the freshly constructed engine by
public operations and timer ticks (ticks fire only while playing), the
cursor satisfies `0 ≤ cursor < len(words)` when `words` is non-empty, and
`cursor = 0` when `words` is empty. -/
theorem reachable_cursor_in_bounds (es : List Event) :
    ((run initState es).words ≠ [] →
      0 ≤ (run initState es).current_index
      ∧ (run initState es).current_index < ((run initState es).words.length : Int))
    ∧ ((run initState es).words = [] → (run initState es).current_index = 0) := by
  have h := run_inv initState_inv es
  exact ⟨h.2.1, h.1⟩

/-- Witness for C2: after loading two words, playing and one tick, the
cursor is a valid index of the non-empty word list. -/
theorem reachable_cursor_in_bounds_witness :
    (run initState [.load "ab cd".toList, .play, .tick]).words ≠ []
    ∧ 0 ≤ (run initState [.load "ab cd".toList, .play, .tick]).current_index
    ∧ (run initState [.load "ab cd".toList, .play, .tick]).current_index
        < ((run initState [.load "ab cd".toList, .play, .tick]).words.length : Int) := by
  have hne : (run initState [.load "ab cd".toList, .play, .tick]).words ≠ [] := by decide
  exact ⟨hne, (reachable_cursor_in_bounds [.load "ab cd".toList, .play, .tick]).1 hne⟩

theorem play_snd (s : RSVPState) :
    (play s).2 = if s.words = [] then []
      else [Sig.timer_set_interval (engineInterval (play s).1), Sig.timer_start,
            Sig.state_changed] := by
  by_cases hne : s.words = []
  · simp [play, hne]
  · by_cases hc : (s.words.length : Int) - 1 ≤ s.current_index <;>
      simp [play, hne, List.isEmpty_eq_false.mpr hne, hc, update_timer_interval]

/-- C3: `play` is a no-op when `words` is empty; otherwise it resets the
cursor to 0 exactly when the cursor is at or past the final word, sets
`is_playing`, and emits the recomputed interval for the current word followed
by the timer start and the state-changed notification. -/
theorem play_restart_semantics (s : RSVPState) :
    (s.words = [] → play s = (s, []))
    ∧ (s.words ≠ [] →
        (play s).1.is_playing = true
        ∧ ((s.words.length : Int) - 1 ≤ s.current_index → (play s).1.current_index = 0)
        ∧ (s.current_index < (s.words.length : Int) - 1 →
            (play s).1.current_index = s.current_index)
        ∧ (play s).1.words = s.words
        ∧ (play s).2 = [Sig.timer_set_interval (engineInterval (play s).1),
            Sig.timer_start, Sig.state_changed]) := by
  constructor
  · intro h
    simp [play, h]
  · intro hne
    refine ⟨?_, ?_, ?_, ?_, ?_⟩
    · rw [play_fst]
      simp [hne]
    · intro hc
      rw [play_fst]
      simp [hne, hc]
    · intro hc
      rw [play_fst]
      simp [hne]
      intro h0
      omega
    · rw [play_fst]
      simp [hne]
    · rw [play_snd]
      simp [hne]

/-- Witness for C3: playing the one-word state with the cursor on the final
word restarts from index 0 and starts the timer. -/
theorem play_restart_semantics_witness :
    sPlay.words ≠ []
    ∧ (play sPlay).1.is_playing = true
    ∧ (play sPlay).1.current_index = 0
    ∧ (play sPlay).2 = [Sig.timer_set_interval (engineInterval (play sPlay).1),
        Sig.timer_start, Sig.state_changed] := by
  have hne : sPlay.words ≠ [] := by decide
  have h := (play_restart_semantics sPlay).2 hne
  exact ⟨hne, h.1, h.2.1 (by decide), h.2.2.2.2⟩

/-- C6: `seek` clamps the index into `[0, len-1]` and leaves `words`, the
rate and `is_playing` unchanged; it is a no-op on empty `words`; the skip
operations delegate to `seek` at cursor ± n; and skipping forward 10 on a
three-word text clamps the cursor to 2. -/
theorem seek_clamps_and_frames (s : RSVPState) (i n : Int) :
    (s.words ≠ [] →
      (seek s i).1.current_index = max 0 (min i ((s.words.length : Int) - 1))
      ∧ (seek s i).1.words = s.words
      ∧ (seek s i).1.wpm = s.wpm
      ∧ (seek s i).1.is_playing = s.is_playing)
    ∧ (s.words = [] → seek s i = (s, []))
    ∧ skip_forward s n = seek s (s.current_index + n)
    ∧ skip_backward s n = seek s (s.current_index - n)
    ∧ (run initState [Event.load "one two three".toList,
        Event.skipForward 10]).current_index = 2 := by
  refine ⟨?_, ?_, rfl, rfl, by rfl⟩
  · intro hne
    rw [seek_fst]
    simp [hne]
  · intro h
    simp [seek, h]

/-- Witness for C6: seeking to 5 in the two-word state clamps the cursor to
index 1 and preserves the other fields. -/
theorem seek_clamps_and_frames_witness :
    sTwo.words ≠ []
    ∧ (seek sTwo 5).1.current_index = 1
    ∧ (seek sTwo 5).1.words = sTwo.words
    ∧ (seek sTwo 5).1.wpm = sTwo.wpm
    ∧ (seek sTwo 5).1.is_playing = sTwo.is_playing := by
  have hne : sTwo.words ≠ [] := by decide
  have h := (seek_clamps_and_frames sTwo 5 0).1 hne
  exact ⟨hne, h.1.trans (by decide), h.2.1, h.2.2.1, h.2.2.2⟩

theorem step_wpm_bounds {s : RSVPState} (h1 : 50 ≤ s.wpm) (h2 : s.wpm ≤ 2000)
    (e : Event) : 50 ≤ (step s e).1.wpm ∧ (step s e).1.wpm ≤ 2000 := by
  cases e with
  | load t => exact ⟨h1, h2⟩
  | play =>
    show 50 ≤ (play s).1.wpm ∧ (play s).1.wpm ≤ 2000
    rw [play_fst]
    by_cases hne : s.words = []
    · simpa [hne] using ⟨h1, h2⟩
    · simp only [hne, if_false]
      exact ⟨h1, h2⟩
  | pause => exact ⟨h1, h2⟩
  | toggle =>
    show 50 ≤ (toggle_play_pause s).1.wpm ∧ (toggle_play_pause s).1.wpm ≤ 2000
    rw [toggle_play_pause]
    by_cases hp : s.is_playing
    · simp only [hp, if_true]
      exact ⟨h1, h2⟩
    · simp only [hp, Bool.false_eq_true, if_false]
      rw [play_fst]
      by_cases hne : s.words = []
      · simpa [hne] using ⟨h1, h2⟩
      · simp only [hne, if_false]
        exact ⟨h1, h2⟩
  | stop => exact ⟨h1, h2⟩
  | seek i =>
    show 50 ≤ (seek s i).1.wpm ∧ (seek s i).1.wpm ≤ 2000
    rw [seek_fst]
    by_cases hne : s.words = []
    · simpa [hne] using ⟨h1, h2⟩
    · simp only [hne, if_false]
      exact ⟨h1, h2⟩
  | seekPercent p =>
    show 50 ≤ (seek_percent s p).1.wpm ∧ (seek_percent s p).1.wpm ≤ 2000
    rw [seek_percent_fst]
    by_cases hne : s.words = []
    · simpa [hne] using ⟨h1, h2⟩
    · simp only [hne, if_false]
      rw [seek_fst]
      simp only [hne, if_false]
      exact ⟨h1, h2⟩
  | skipForward n =>
    show 50 ≤ (seek s (s.current_index + n)).1.wpm
      ∧ (seek s (s.current_index + n)).1.wpm ≤ 2000
    rw [seek_fst]
    by_cases hne : s.words = []
    · simpa [hne] using ⟨h1, h2⟩
    · simp only [hne, if_false]
      exact ⟨h1, h2⟩
  | skipBackward n =>
    show 50 ≤ (seek s (s.current_index - n)).1.wpm
      ∧ (seek s (s.current_index - n)).1.wpm ≤ 2000
    rw [seek_fst]
    by_cases hne : s.words = []
    · simpa [hne] using ⟨h1, h2⟩
    · simp only [hne, if_false]
      exact ⟨h1, h2⟩
  | prevSentence =>
    show 50 ≤ (previous_sentence s).1.wpm ∧ (previous_sentence s).1.wpm ≤ 2000
    rw [previous_sentence_fst]
    by_cases hne : s.words = []
    · simpa [hne] using ⟨h1, h2⟩
    · simp only [hne, if_false]
      rw [seek_fst]
      simp only [hne, if_false]
      exact ⟨h1, h2⟩
  | nextSentence =>
    show 50 ≤ (next_sentence s).1.wpm ∧ (next_sentence s).1.wpm ≤ 2000
    rw [next_sentence_fst]
    by_cases hne : s.words = []
    · simpa [hne] using ⟨h1, h2⟩
    · simp only [hne, if_false]
      rw [seek_fst]
      simp only [hne, if_false]
      exact ⟨h1, h2⟩
  | setRate v =>
    show 50 ≤ (set_wpm s v).1.wpm ∧ (set_wpm s v).1.wpm ≤ 2000
    rw [set_wpm_fst]
    dsimp only
    omega
  | tick =>
    show 50 ≤ (if s.is_playing then advance s else (s, [])).1.wpm
      ∧ (if s.is_playing then advance s else (s, [])).1.wpm ≤ 2000
    by_cases hp : s.is_playing
    · simp only [hp, if_true]
      rw [advance_fst]
      by_cases hc : (s.words.length : Int) ≤ s.current_index + 1
      · simp only [hc, if_true]
        exact ⟨h1, h2⟩
      · simp only [hc, if_false]
        exact ⟨h1, h2⟩
    · simpa [hp] using ⟨h1, h2⟩

theorem run_wpm_bounds {s : RSVPState} (h1 : 50 ≤ s.wpm) (h2 : s.wpm ≤ 2000)
    (es : List Event) : 50 ≤ (run s es).wpm ∧ (run s es).wpm ≤ 2000 := by
  induction es generalizing s with
  | nil => exact ⟨h1, h2⟩
  | cons e es ih =>
    rcases step_wpm_bounds h1 h2 e with ⟨g1, g2⟩
    exact ih g1 g2

/-- C9: the rate setter stores exactly `max 50 (min 2000 v)`, so the stored
rate is in `[50, 2000]` and strictly positive, the interval division
`60000 / rate` is by a non-zero quantity, and while playing the setter
immediately emits a recomputed timer interval (and emits nothing otherwise);
moreover every reachable state keeps its rate in `[50, 2000]`. -/
theorem set_rate_clamps (s : RSVPState) (v : Int) :
    (set_wpm s v).1.wpm = max 50 (min 2000 v)
    ∧ (50 ≤ (set_wpm s v).1.wpm ∧ (set_wpm s v).1.wpm ≤ 2000)
    ∧ 0 < (set_wpm s v).1.wpm
    ∧ (60000 / (((set_wpm s v).1.wpm : Int) : ℚ)) * (((set_wpm s v).1.wpm : Int) : ℚ)
        = 60000
    ∧ (s.is_playing = true →
        (set_wpm s v).2 = [Sig.timer_set_interval (engineInterval (set_wpm s v).1)])
    ∧ (s.is_playing = false → (set_wpm s v).2 = [])
    ∧ (∀ es : List Event, 50 ≤ (run initState es).wpm ∧ (run initState es).wpm ≤ 2000) := by
  have hwpm : (set_wpm s v).1.wpm = max 50 (min 2000 v) := by
    rw [set_wpm_fst]
  have hlo : 50 ≤ (set_wpm s v).1.wpm := by rw [hwpm]; omega
  have hhi : (set_wpm s v).1.wpm ≤ 2000 := by rw [hwpm]; omega
  refine ⟨hwpm, ⟨hlo, hhi⟩, by omega, ?_, ?_, ?_, ?_⟩
  · have hnz : (((set_wpm s v).1.wpm : Int) : ℚ) ≠ 0 := by
      rw [Int.cast_ne_zero]
      omega
    exact div_mul_cancel₀ 60000 hnz
  · intro hp
    simp [set_wpm, update_timer_interval, hp]
  · intro hp
    simp [set_wpm, hp]
  · intro es
    exact run_wpm_bounds (by decide) (by decide) es

/-- Witness for C9: setting the rate to 9999 while playing stores 2000 and
emits the recomputed interval. -/
theorem set_rate_clamps_witness :
    (set_wpm sTick 9999).1.wpm = max 50 (min 2000 9999)
    ∧ sTick.is_playing = true
    ∧ (set_wpm sTick 9999).2
        = [Sig.timer_set_interval (engineInterval (set_wpm sTick 9999).1)] := by
  have h := set_rate_clamps sTick 9999
  exact ⟨h.1, rfl, h.2.2.2.2.1 rfl⟩

/-- A tick arriving while not playing changes nothing and emits nothing. -/
theorem tick_noop {s : RSVPState} (h : s.is_playing = false) :
    step s .tick = (s, []) := by
  simp [step, h]

/-- Repeated ticks while not playing change nothing and emit nothing. -/
theorem runSigs_ticks_noop {s : RSVPState} (h : s.is_playing = false) (n : Nat) :
    runSigs s (List.replicate n Event.tick) = (s, []) := by
  induction n with
  | zero => rfl
  | succ n ih => simp [List.replicate_succ, runSigs, tick_noop h, ih]

/-- C1: a tick that advances the cursor to or past `len(words)` stops the
timer and clears `is_playing`, clamps the cursor to the last index, emits
`finished` exactly once and no word-changed or progress-changed on that
tick; and since the engine is then stopped, any number of further ticks
(ticks fire only while playing) change nothing and emit nothing — so
`finished` fires once per run to the end until `play` is invoked again. -/
theorem finish_tick_emits_finished_once (s : RSVPState)
    (hp : s.is_playing = true) (_hne : s.words ≠ [])
    (hend : (s.words.length : Int) ≤ s.current_index + 1) :
    (step s .tick).1.is_playing = false
    ∧ (step s .tick).1.current_index = (s.words.length : Int) - 1
    ∧ (step s .tick).2.count Sig.finished = 1
    ∧ (∀ w, Sig.word_changed w ∉ (step s .tick).2)
    ∧ (∀ q, Sig.progress_changed q ∉ (step s .tick).2)
    ∧ Sig.timer_stop ∈ (step s .tick).2
    ∧ (∀ n : Nat, runSigs (step s .tick).1 (List.replicate n Event.tick)
        = ((step s .tick).1, [])) := by
  have hstep : step s .tick = advance s := by simp [step, hp]
  have hadv : advance s = Prod.mk
      { s with is_playing := false, current_index := (s.words.length : Int) - 1 }
      [Sig.timer_stop, Sig.state_changed, Sig.finished] := by
    rw [advance]
    simp [pause, hend]
  rw [hstep, hadv]
  refine ⟨rfl, rfl, ?_, ?_, ?_, by simp, ?_⟩
  · show List.count Sig.finished [Sig.timer_stop, Sig.state_changed, Sig.finished] = 1
    decide
  · intro w hmem
    simp at hmem
  · intro q hmem
    simp at hmem
  · intro n
    exact runSigs_ticks_noop rfl n

/-- Witness for C1: a tick in the one-word playing state at the last word
finishes: playing clears, cursor pins to 0, one `finished`, and two further
ticks do nothing. -/
theorem finish_tick_emits_finished_once_witness :
    sTick.is_playing = true
    ∧ sTick.words ≠ []
    ∧ (sTick.words.length : Int) ≤ sTick.current_index + 1
    ∧ (step sTick .tick).1.is_playing = false
    ∧ (step sTick .tick).1.current_index = 0
    ∧ (step sTick .tick).2.count Sig.finished = 1
    ∧ runSigs (step sTick .tick).1 (List.replicate 2 Event.tick)
        = ((step sTick .tick).1, []) := by
  have h := finish_tick_emits_finished_once sTick rfl (by decide) (by decide)
  exact ⟨rfl, by decide, by decide, h.1, h.2.1.trans (by decide), h.2.2.1,
    h.2.2.2.2.2.2 2⟩

theorem nextScanGo_no_terminator (words : List Word) :
    ∀ (fuel idx : Nat), fuel = words.length - 1 - idx →
      (∀ k, idx ≤ k → k < words.length - 1 → terminatorAt words k = false) →
      nextScanGo words idx fuel = words.length - 1 := by
  intro fuel
  induction fuel with
  | zero =>
    intro idx _ _
    rfl
  | succ fuel ih =>
    intro idx hfuel hnone
    have hidx : idx < words.length - 1 := by omega
    have ht : terminatorAt words idx = false := hnone idx (le_refl idx) hidx
    simp only [nextScanGo, ht, Bool.false_eq_true, if_false]
    exact ih (idx + 1) (by omega) (fun k hk1 hk2 => hnone k (by omega) hk2)

theorem nextScanGo_first_terminator (words : List Word) :
    ∀ (fuel idx j : Nat), fuel = words.length - 1 - idx →
      idx ≤ j → j < words.length - 1 → terminatorAt words j = true →
      (∀ k, idx ≤ k → k < j → terminatorAt words k = false) →
      nextScanGo words idx fuel = j + 1 := by
  intro fuel
  induction fuel with
  | zero =>
    intro idx j hfuel hij hj _ _
    omega
  | succ fuel ih =>
    intro idx j hfuel hij hj ht hmin
    by_cases heq : idx = j
    · subst heq
      simp only [nextScanGo, ht, if_true]
    · have hlt : idx < j := by omega
      have h0 : terminatorAt words idx = false := hmin idx (le_refl idx) hlt
      simp only [nextScanGo, h0, Bool.false_eq_true, if_false]
      exact ih (idx + 1) j (by omega) (by omega) hj ht
        (fun k hk1 hk2 => hmin k (by omega) hk2)

/-- C5: on non-empty `words`, `next_sentence` seeks to the scan result; the
scan walks indices upward from the cursor while `idx < len(words) - 1`,
returns `j + 1` at the first index `j` whose word ends in `.`, `!` or `?`,
and `len(words) - 1` when no such index exists; and on
"First sentence. Second sentence. Third." from index 0 the current word
becomes "Second". -/
theorem next_sentence_first_terminator (s : RSVPState) (j : Nat) :
    (s.words ≠ [] →
      next_sentence s
        = seek s ((next_sentence_scan s.words s.current_index.toNat : Nat) : Int))
    ∧ ((∀ k, s.current_index.toNat ≤ k → k < s.words.length - 1 →
          terminatorAt s.words k = false) →
        next_sentence_scan s.words s.current_index.toNat = s.words.length - 1)
    ∧ (s.current_index.toNat ≤ j → j < s.words.length - 1 →
        terminatorAt s.words j = true →
        (∀ k, s.current_index.toNat ≤ k → k < j → terminatorAt s.words k = false) →
        next_sentence_scan s.words s.current_index.toNat = j + 1)
    ∧ ((run initState [Event.load "First sentence. Second sentence. Third.".toList,
          Event.seek 0, Event.nextSentence]).current_word).map Word.text
        = some "Second".toList := by
  refine ⟨?_, ?_, ?_, by rfl⟩
  · intro hne
    simp [next_sentence, List.isEmpty_eq_false.mpr hne]
  · intro hnone
    exact nextScanGo_no_terminator s.words _ _ rfl hnone
  · intro h1 h2 h3 h4
    exact nextScanGo_first_terminator s.words _ _ j rfl h1 h2 h3 h4

/-- Witness for C5: scanning "Hi. there x" from index 0 finds the terminator
"Hi." at index 0 and seeks to index 1. -/
theorem next_sentence_first_terminator_witness :
    ((run initState [Event.load "First sentence. Second sentence. Third.".toList,
        Event.seek 0, Event.nextSentence]).current_word).map Word.text
      = some "Second".toList
    ∧ next_sentence_scan (process_text "Hi. there x".toList) 0 = 1 := by
  have h := next_sentence_first_terminator
    { words := process_text "Hi. there x".toList, current_index := 0, wpm := 300,
      is_playing := false } 0
  refine ⟨h.2.2.2, ?_⟩
  have hscan := h.2.2.1 (by decide) (by decide) (by decide)
    (fun k hk1 hk2 => absurd hk2 (by omega))
  simpa using hscan

theorem ratTrunc_neg (q : ℚ) : ratTrunc (-q) = -(ratTrunc q) := by
  rw [ratTrunc, ratTrunc, Rat.neg_num, Rat.neg_den, Int.neg_tdiv]

/-- C4 counterexample: at `p = -25` with two words loaded, the code computes
the index `int((p/100)·len) = 0` (Python `int` truncates toward zero) while
the claim's `floor((p/100)·len)` is `-1`, so "computes index =
floor(p/100·len)" fails for this percentage (the clamped cursor is 0 either
way). -/
theorem seek_percent_index_trunc_ne_floor :
    seek_percent_index (-25) 2 = 0
    ∧ Int.floor ((-25 : ℚ) / 100 * ((2 : Nat) : ℚ)) = -1
    ∧ seek_percent_index (-25) 2 ≠ Int.floor ((-25 : ℚ) / 100 * ((2 : Nat) : ℚ)) := by
  have harg : (-25 : ℚ) / 100 * ((2 : Nat) : ℚ) = -(1/2) := by norm_num
  have h1 : seek_percent_index (-25) 2 = 0 := by
    rw [seek_percent_index, harg, ratTrunc_neg]
    have h0 : ratTrunc (1/2) = 0 := by
      rw [ratTrunc_eq_floor (by norm_num)]
      rw [Int.floor_eq_iff]; norm_num
    rw [h0]
    rfl
  have h2 : Int.floor ((-25 : ℚ) / 100 * ((2 : Nat) : ℚ)) = -1 := by
    rw [harg, Int.floor_eq_iff]; norm_num
  refine ⟨h1, h2, ?_⟩
  rw [h1, h2]
  decide

/-- C4 (amended): `seek_percent` computes its index as `int((p/100)·len)`
with Python `int` truncating toward zero — equal to `floor((p/100)·len)` for
every `p ≥ 0`, in particular on all percentages in `[0, 100]` — and
delegates to `seek`; for every rational `p` the resulting cursor is
`max 0 (min (floor((p/100)·len)) (len-1))` (truncation and floor agree after
clamping); `p = 100` computes the one-past-end index `len(words)`, corrected
by `seek`'s clamp; `seekPercent 50` after loading "one two three four"
yields cursor 2; and `seek_percent` is a no-op on empty `words`. -/
theorem seek_percent_floor_clamp (s : RSVPState) (p : ℚ) :
    (s.words = [] → seek_percent s p = (s, []))
    ∧ (s.words ≠ [] →
        (0 ≤ p → seek_percent_index p s.words.length
            = Int.floor (p / 100 * (s.words.length : ℚ)))
        ∧ seek_percent s p = seek s (seek_percent_index p s.words.length)
        ∧ (seek_percent s p).1.current_index
            = max 0 (min (Int.floor (p / 100 * (s.words.length : ℚ)))
                ((s.words.length : Int) - 1))
        ∧ seek_percent_index 100 s.words.length = (s.words.length : Int))
    ∧ (run initState [Event.load "one two three four".toList,
        Event.seekPercent 50]).current_index = 2 := by
  refine ⟨?_, ?_, ?_⟩
  · intro h
    simp [seek_percent, h]
  · intro hne
    refine ⟨?_, ?_, ?_, ?_⟩
    · intro hp
      rw [seek_percent_index]
      exact ratTrunc_eq_floor
        (mul_nonneg (div_nonneg hp (by norm_num)) (Nat.cast_nonneg _))
    · simp [seek_percent, List.isEmpty_eq_false.mpr hne]
    · rw [seek_percent_fst]
      simp only [hne, if_false]
      rw [seek_fst]
      simp only [hne, if_false]
      rcases le_or_lt 0 (p / 100 * (s.words.length : ℚ)) with hq | hq
      · rw [seek_percent_index, ratTrunc_eq_floor hq]
      · have ht : ratTrunc (p / 100 * (s.words.length : ℚ)) ≤ 0 :=
          ratTrunc_nonpos hq.le
        have hf : Int.floor (p / 100 * (s.words.length : ℚ)) ≤ 0 :=
          Int.floor_nonpos hq.le
        have hlen : 0 < s.words.length := List.length_pos.mpr hne
        rw [seek_percent_index]
        omega
    · rw [seek_percent_index]
      have h100 : (100 : ℚ) / 100 * (s.words.length : ℚ) = (s.words.length : ℚ) := by
        norm_num
      rw [h100, ratTrunc_natCast]
  · show (seek_percent (run initState [Event.load "one two three four".toList])
      50).1.current_index = 2
    rw [seek_percent]
    have hne : (run initState
        [Event.load "one two three four".toList]).words.isEmpty = false := by rfl
    rw [hne]
    have hlen : (run initState
        [Event.load "one two three four".toList]).words.length = 4 := by rfl
    simp only [Bool.false_eq_true, if_false, hlen]
    have h2 : seek_percent_index 50 4 = 2 := by
      have h : (50 : ℚ) / 100 * ((4 : Nat) : ℚ) = ((2 : Nat) : ℚ) := by norm_num
      rw [seek_percent_index, h, ratTrunc_natCast]
      rfl
    rw [h2]
    rfl

/-- Witness for C4: `seekPercent 50` on two words computes index
`floor(50/100·2) = 1` and the clamped cursor 1. -/
theorem seek_percent_floor_clamp_witness :
    sTwo.words ≠ []
    ∧ seek_percent_index 50 sTwo.words.length
        = Int.floor ((50 : ℚ) / 100 * (sTwo.words.length : ℚ))
    ∧ (seek_percent sTwo 50).1.current_index = 1 := by
  have hne : sTwo.words ≠ [] := by decide
  have h := (seek_percent_floor_clamp sTwo 50).2.1 hne
  have hfl : Int.floor ((50 : ℚ) / 100 * (sTwo.words.length : ℚ)) = 1 := by
    show Int.floor ((50 : ℚ) / 100 * ((2 : Nat) : ℚ)) = 1
    have : (50 : ℚ) / 100 * ((2 : Nat) : ℚ) = 1 := by norm_num
    rw [this]
    exact Int.floor_one
  refine ⟨hne, h.1 (by norm_num), ?_⟩
  rw [h.2.2.1, hfl]
  decide

end RSVP
